import Mathlib

/-!
Verification of the performance-primitive header of the
obs-mac-backgroundremoval plugin (`src/plugin-support.h`): alpha
blending (scalar and NEON paths), bulk memory copy/fill, aligned
allocation, atomic statistics counters, and logging-level constants.

Byte memory is modelled as a function `Nat → Nat`; a store into a
`uint8_t` location truncates the written value modulo 256, exactly as a
C conversion to `uint8_t` does for a non-negative `int`.
-/

/-- Byte-addressed memory: the byte at address `k` is `m k`.
A well-formed memory holds values below 256 at every address. -/
def Mem : Type := Nat → Nat

/-- Store `v` into the `uint8_t` at address `i` (C conversion to
`uint8_t` reduces the non-negative value modulo 256). -/
def writeByte (m : Mem) (i v : Nat) : Mem :=
  fun k => if k = i then v % 256 else m k

/-- One channel of the scalar blend, from the source line
`dst[i*4+c] = (dst[i*4+c] * (255 - a) + src[i*4+c] * a) / 255;`
with C `int` arithmetic: all operands are bytes, so the intermediate
fits `int` and `/` is truncating division. -/
def blendChannel (d s a : Nat) : Nat :=
  (d * (255 - a) + s * a) / 255

/-- The body of the scalar blend loop for one pixel `i`: the four
channel stores of `obs_blend_alpha_generic`, performed in source
order. -/
def obs_blend_pixel (dst src alpha : Mem) (i : Nat) : Mem :=
  let a := alpha i
  let d0 := writeByte dst (i * 4) (blendChannel (dst (i * 4)) (src (i * 4)) a)
  let d1 := writeByte d0 (i * 4 + 1) (blendChannel (d0 (i * 4 + 1)) (src (i * 4 + 1)) a)
  let d2 := writeByte d1 (i * 4 + 2) (blendChannel (d1 (i * 4 + 2)) (src (i * 4 + 2)) a)
  writeByte d2 (i * 4 + 3) (blendChannel (d2 (i * 4 + 3)) (src (i * 4 + 3)) a)

/-- `obs_blend_alpha_generic(dst, src, alpha, count)`: the scalar
fallback blend, a loop over pixels `i = 0 .. count-1`. -/
def obs_blend_alpha_generic (dst src alpha : Mem) (count : Nat) : Mem :=
  (List.range count).foldl (fun d i => obs_blend_pixel d src alpha i) dst

-- Basic frame lemmas -------------------------------------------------

theorem writeByte_ne (m : Mem) (i v k : Nat) (h : k ≠ i) :
    writeByte m i v k = m k := by
  simp [writeByte, h]

theorem writeByte_eq (m : Mem) (i v : Nat) :
    writeByte m i v i = v % 256 := by
  simp [writeByte]

/-- A pixel blend writes only the four bytes of pixel `i`. -/
theorem obs_blend_pixel_frame (dst src alpha : Mem) (i k : Nat)
    (h : k < i * 4 ∨ i * 4 + 4 ≤ k) :
    obs_blend_pixel dst src alpha i k = dst k := by
  unfold obs_blend_pixel
  rw [writeByte_ne, writeByte_ne, writeByte_ne, writeByte_ne]
  all_goals omega

/-- The value the pixel blend stores at channel `c` of pixel `i` is the
channel formula applied to the original bytes, reduced modulo 256. -/
theorem obs_blend_pixel_channel (dst src alpha : Mem) (i c : Nat) (hc : c < 4) :
    obs_blend_pixel dst src alpha i (i * 4 + c) =
      blendChannel (dst (i * 4 + c)) (src (i * 4 + c)) (alpha i) % 256 := by
  unfold obs_blend_pixel
  interval_cases c
  · rw [writeByte_ne _ _ _ _ (by omega), writeByte_ne _ _ _ _ (by omega),
      writeByte_ne _ _ _ _ (by omega)]
    have : i * 4 + 0 = i * 4 := by omega
    rw [this, writeByte_eq]
  · rw [writeByte_ne _ _ _ _ (by omega), writeByte_ne _ _ _ _ (by omega), writeByte_eq,
      writeByte_ne _ _ _ _ (by omega)]
  · rw [writeByte_ne _ _ _ _ (by omega), writeByte_eq,
      writeByte_ne _ _ _ _ (by omega), writeByte_ne _ _ _ _ (by omega)]
  · rw [writeByte_eq, writeByte_ne _ _ _ _ (by omega),
      writeByte_ne _ _ _ _ (by omega), writeByte_ne _ _ _ _ (by omega)]

/-- Pixels at or beyond `count` are never touched by the scalar blend:
any byte at address `count * 4` or above keeps its old value. -/
theorem obs_blend_alpha_generic_untouched (dst src alpha : Mem) (count k : Nat)
    (h : count * 4 ≤ k) :
    obs_blend_alpha_generic dst src alpha count k = dst k := by
  induction count generalizing dst with
  | zero => simp [obs_blend_alpha_generic]
  | succ n ih =>
    unfold obs_blend_alpha_generic
    rw [List.range_succ, List.foldl_append]
    simp only [List.foldl_cons, List.foldl_nil]
    rw [obs_blend_pixel_frame]
    · exact ih dst (by omega)
    · omega

/-- Characterization of the scalar blend: the byte of channel `c` of
pixel `i < count` is the channel formula on the original bytes, reduced
modulo 256. -/
theorem blend_generic_byte (dst src alpha : Mem) (count i c : Nat)
    (hi : i < count) (hc : c < 4) :
    obs_blend_alpha_generic dst src alpha count (i * 4 + c) =
      blendChannel (dst (i * 4 + c)) (src (i * 4 + c)) (alpha i) % 256 := by
  induction count with
  | zero => omega
  | succ n ih =>
    unfold obs_blend_alpha_generic
    rw [List.range_succ, List.foldl_append]
    simp only [List.foldl_cons, List.foldl_nil]
    rcases Nat.lt_or_ge i n with hlt | hge
    · rw [obs_blend_pixel_frame]
      · exact ih hlt
      · omega
    · have hin : i = n := by omega
      subst hin
      rw [obs_blend_pixel_channel _ _ _ _ _ hc]
      have hu := obs_blend_alpha_generic_untouched dst src alpha i (i * 4 + c) (by omega)
      unfold obs_blend_alpha_generic at hu
      rw [hu]

/-- The blended channel value of byte inputs is itself a byte. -/
theorem blendChannel_le (d s a : Nat) (hd : d ≤ 255) (hs : s ≤ 255) (ha : a ≤ 255) :
    blendChannel d s a ≤ 255 := by
  unfold blendChannel
  have h1 : d * (255 - a) ≤ 255 * (255 - a) := Nat.mul_le_mul_right _ hd
  have h2 : s * a ≤ 255 * a := Nat.mul_le_mul_right _ hs
  have h3 : d * (255 - a) + s * a ≤ 255 * 255 := by
    have : 255 * (255 - a) + 255 * a = 255 * 255 := by omega
    omega
  calc (d * (255 - a) + s * a) / 255 ≤ 255 * 255 / 255 := Nat.div_le_div_right h3
  _ = 255 := by norm_num

/-- C1: for every pixel `i < count` and channel `c < 4`, the scalar
blend `obs_blend_alpha_generic` sets `dst[i*4+c]` to
`(dst[i*4+c] * (255 - alpha[i]) + src[i*4+c] * alpha[i]) / 255` with
truncating integer division, the original byte values on the right. -/
theorem blend_generic_formula (dst src alpha : Mem) (count i c : Nat)
    (hi : i < count) (hc : c < 4)
    (hd : dst (i * 4 + c) ≤ 255) (hs : src (i * 4 + c) ≤ 255)
    (ha : alpha i ≤ 255) :
    obs_blend_alpha_generic dst src alpha count (i * 4 + c) =
      (dst (i * 4 + c) * (255 - alpha i) + src (i * 4 + c) * alpha i) / 255 := by
  rw [blend_generic_byte dst src alpha count i c hi hc]
  rw [Nat.mod_eq_of_lt (by
    have := blendChannel_le (dst (i * 4 + c)) (src (i * 4 + c)) (alpha i) hd hs ha
    omega)]
  rfl

/-- Witness for C1 at a concrete input: one pixel with
`dst = 100`, `src = 200`, `alpha = 128`. -/
theorem blend_generic_formula_witness :
    obs_blend_alpha_generic (fun _ => 100) (fun _ => 200) (fun _ => 128) 1 (0 * 4 + 0) =
      (100 * (255 - 128) + 200 * 128) / 255 :=
  blend_generic_formula (fun _ => 100) (fun _ => 200) (fun _ => 128) 1 0 0
    (by decide) (by decide) (by decide) (by decide) (by decide)

/-- C8: for byte channel values `d`, `s` and byte alpha `a`, the blend
intermediate `d*(255-a) + s*a` is at most 65025 and the truncated
quotient is at most 255, so the store into a `uint8_t` channel never
wraps: the stored byte (value mod 256) equals the formula value. -/
theorem blend_channel_no_overflow (d s a : Nat)
    (hd : d ≤ 255) (hs : s ≤ 255) (ha : a ≤ 255) :
    d * (255 - a) + s * a ≤ 65025 ∧
      blendChannel d s a ≤ 255 ∧
      blendChannel d s a % 256 = blendChannel d s a := by
  have h1 : d * (255 - a) ≤ 255 * (255 - a) := Nat.mul_le_mul_right _ hd
  have h2 : s * a ≤ 255 * a := Nat.mul_le_mul_right _ hs
  have h3 : d * (255 - a) + s * a ≤ 65025 := by
    have : 255 * (255 - a) + 255 * a = 255 * 255 := by omega
    omega
  have h4 := blendChannel_le d s a hd hs ha
  exact ⟨h3, h4, Nat.mod_eq_of_lt (by omega)⟩

/-- Witness for C8 at the extreme input `d = s = a = 255`. -/
theorem blend_channel_no_overflow_witness :
    255 * (255 - 255) + 255 * 255 ≤ 65025 ∧
      blendChannel 255 255 255 ≤ 255 ∧
      blendChannel 255 255 255 % 256 = blendChannel 255 255 255 :=
  blend_channel_no_overflow 255 255 255 (by decide) (by decide) (by decide)

/-- C9: a pixel whose alpha is 0 is left unchanged by the scalar blend:
every one of its four destination bytes keeps its original value. -/
theorem blend_generic_alpha_zero_identity (dst src alpha : Mem) (count i c : Nat)
    (hi : i < count) (hc : c < 4) (ha : alpha i = 0)
    (hd : dst (i * 4 + c) ≤ 255) :
    obs_blend_alpha_generic dst src alpha count (i * 4 + c) = dst (i * 4 + c) := by
  rw [blend_generic_byte dst src alpha count i c hi hc, ha]
  unfold blendChannel
  simp only [Nat.sub_zero, Nat.mul_zero, Nat.add_zero]
  rw [Nat.mul_div_cancel _ (by norm_num : (0 : Nat) < 255)]
  exact Nat.mod_eq_of_lt (by omega)

/-- Witness for C9: one pixel with `dst = 77`, `src = 200`, alpha 0. -/
theorem blend_generic_alpha_zero_identity_witness :
    obs_blend_alpha_generic (fun _ => 77) (fun _ => 200) (fun _ => 0) 1 (0 * 4 + 2) = 77 :=
  blend_generic_alpha_zero_identity (fun _ => 77) (fun _ => 200) (fun _ => 0) 1 0 2
    (by decide) (by decide) (by decide) (by decide)

/-- One 16-pixel group iteration of `obs_blend_alpha_neon`, embedded
from the NEON intrinsics: `vld1q_u8(&src[i*4])` loads 16 bytes,
`vdupq_laneq_u8(alpha_data, 0)` replicates `alpha[i]` across all lanes
(only `val[0]` of the expanded alpha is used), `vmull_u8` widens to a
16-bit product `src[i*4+j] * alpha[i]`, `vqmovn_u16` narrows back with
saturation (`min · 255`), and `vst1q_u8(&dst[i*4], result)` stores the
16 result bytes.  The loaded `dst_data` is never used, and only 16 of
the group's 64 destination bytes are written. -/
def neonGroup (src alpha : Mem) (i : Nat) (dst : Mem) : Mem :=
  fun k => if i * 4 ≤ k ∧ k < i * 4 + 16 then min (src k * alpha i) 255 else dst k

/-- `obs_blend_alpha_neon(dst, src, alpha, count)`: the vector loop runs
for pixel starts `i = 0, 16, …` while `i + 16 ≤ count` (that is,
`count / 16` groups), then the remainder loop blends pixels
`16*(count/16) … count-1` with the scalar per-channel formula. -/
def obs_blend_alpha_neon (dst src alpha : Mem) (count : Nat) : Mem :=
  let groups := count / 16
  let afterVec := (List.range groups).foldl (fun d t => neonGroup src alpha (16 * t) d) dst
  (List.range' (16 * groups) (count - 16 * groups)).foldl
    (fun d i => obs_blend_pixel d src alpha i) afterVec

/-- C2 fails on the code: with 16 pixels, `dst` all 255, `src` all 0 and
alpha all 0, the scalar path leaves byte 0 at 255 (alpha 0 is identity)
while the NEON path overwrites it with `min(src*alpha, 255) = 0`.  The
two paths therefore disagree on the destination contents. -/
theorem blend_neon_diverges_from_generic :
    obs_blend_alpha_neon (fun _ => 255) (fun _ => 0) (fun _ => 0) 16 0 = 0 ∧
      obs_blend_alpha_generic (fun _ => 255) (fun _ => 0) (fun _ => 0) 16 0 = 255 ∧
      obs_blend_alpha_neon (fun _ => 255) (fun _ => 0) (fun _ => 0) 16 0 ≠
        obs_blend_alpha_generic (fun _ => 255) (fun _ => 0) (fun _ => 0) 16 0 := by
  refine ⟨?_, ?_, ?_⟩ <;> decide

/-- Naive byte-wise copy of `n` bytes from `src` at offset `sOff` into
`dst` at offset `dOff`: the semantics of C `memcpy` on non-overlapping
regions (here source and destination are distinct memories, so overlap
cannot occur). -/
def memcpy_bytes (dst src : Mem) (dOff sOff n : Nat) : Mem :=
  fun k => if dOff ≤ k ∧ k < dOff + n then src (sOff + (k - dOff)) % 256 else dst k

/-- One 64-byte chunk of `obs_memcpy_neon`: `vld1q_u8_x4(s)` followed
by `vst1q_u8_x4(d, data)` moves 64 bytes unchanged. -/
def copy64 (dst src : Mem) (d s : Nat) : Mem :=
  fun k => if d ≤ k ∧ k < d + 64 then src (s + (k - d)) % 256 else dst k

/-- The `while (size >= 64)` chunk loop of `obs_memcpy_neon`, followed
by the `if (size > 0) memcpy(d, s, size)` remainder. -/
def neonCopyLoop (dst src : Mem) (d s size : Nat) : Mem :=
  if 64 ≤ size then
    neonCopyLoop (copy64 dst src d s) src (d + 64) (s + 64) (size - 64)
  else if 0 < size then memcpy_bytes dst src d s size else dst
termination_by size
decreasing_by omega

/-- `obs_memcpy_neon(dst, src, size)`: NEON chunking for transfers of
at least 64 bytes, plain `memcpy` otherwise. -/
def obs_memcpy_neon (dst src : Mem) (dOff sOff size : Nat) : Mem :=
  if 64 ≤ size then neonCopyLoop dst src dOff sOff size
  else memcpy_bytes dst src dOff sOff size

theorem memcpy_bytes_zero (dst src : Mem) (d s : Nat) :
    memcpy_bytes dst src d s 0 = dst := by
  funext k
  simp only [memcpy_bytes]
  rw [if_neg (by omega)]

/-- Copying a 64-byte chunk and then the remaining `n - 64` bytes is
the same as copying all `n` bytes at once. -/
theorem memcpy_bytes_chunk (dst src : Mem) (d s n : Nat) (h : 64 ≤ n) :
    memcpy_bytes (copy64 dst src d s) src (d + 64) (s + 64) (n - 64) =
      memcpy_bytes dst src d s n := by
  funext k
  simp only [memcpy_bytes, copy64]
  by_cases h1 : d + 64 ≤ k ∧ k < d + 64 + (n - 64)
  · rw [if_pos h1, if_pos (by omega)]
    have he : s + 64 + (k - (d + 64)) = s + (k - d) := by omega
    rw [he]
  · rw [if_neg h1]
    by_cases h2 : d ≤ k ∧ k < d + 64
    · rw [if_pos h2, if_pos (by omega)]
    · rw [if_neg h2, if_neg (by omega)]

/-- The chunk loop is extensionally a plain byte copy. -/
theorem neonCopyLoop_eq (src : Mem) (size : Nat) :
    ∀ dst d s, neonCopyLoop dst src d s size = memcpy_bytes dst src d s size := by
  induction size using Nat.strong_induction_on with
  | _ size ih =>
    intro dst d s
    rw [neonCopyLoop]
    by_cases h : 64 ≤ size
    · rw [if_pos h]
      rw [ih (size - 64) (by omega)]
      exact memcpy_bytes_chunk dst src d s size h
    · rw [if_neg h]
      by_cases h0 : 0 < size
      · rw [if_pos h0]
      · rw [if_neg h0]
        have hz : size = 0 := by omega
        rw [hz, memcpy_bytes_zero]

/-- C3: for every byte count, `obs_memcpy_neon` (64-byte chunks while
at least 64 bytes remain, byte-wise remainder) leaves the destination
byte-identical to a naive byte-wise copy of the same count. -/
theorem memcpy_neon_eq_naive_copy (dst src : Mem) (dOff sOff size : Nat) :
    obs_memcpy_neon dst src dOff sOff size = memcpy_bytes dst src dOff sOff size := by
  unfold obs_memcpy_neon
  by_cases h : 64 ≤ size
  · rw [if_pos h]
    exact neonCopyLoop_eq src size dst dOff sOff
  · rw [if_neg h]

/-- Byte-wise fill of `n` bytes with the low byte of `value`: the
semantics of C `memset` (which converts `value` to `unsigned char`). -/
def memset_bytes (dst : Mem) (dOff value n : Nat) : Mem :=
  fun k => if dOff ≤ k ∧ k < dOff + n then value % 256 else dst k

/-- One 64-byte iteration of the `obs_memset_neon` loop: four
`vst1q_u8` stores of `vdupq_n_u8((uint8_t)value)` write bytes
`d .. d+63`. -/
def set64 (dst : Mem) (d value : Nat) : Mem :=
  fun k => if d ≤ k ∧ k < d + 64 then value % 256 else dst k

/-- The `while (size >= 64)` loop of `obs_memset_neon` followed by the
`if (size > 0) memset(d, value, size)` remainder. -/
def neonSetLoop (dst : Mem) (d value size : Nat) : Mem :=
  if 64 ≤ size then
    neonSetLoop (set64 dst d value) (d + 64) value (size - 64)
  else if 0 < size then memset_bytes dst d value size else dst
termination_by size
decreasing_by omega

/-- `obs_memset_neon(dst, value, size)`: NEON chunking for fills of at
least 64 bytes, plain `memset` otherwise. -/
def obs_memset_neon (dst : Mem) (dOff value size : Nat) : Mem :=
  if 64 ≤ size then neonSetLoop dst dOff value size
  else memset_bytes dst dOff value size

theorem memset_bytes_zero (dst : Mem) (d v : Nat) :
    memset_bytes dst d v 0 = dst := by
  funext k
  simp only [memset_bytes]
  rw [if_neg (by omega)]

/-- Filling a 64-byte chunk and then the remaining `n - 64` bytes is
the same as filling all `n` bytes at once. -/
theorem memset_bytes_chunk (dst : Mem) (d v n : Nat) (h : 64 ≤ n) :
    memset_bytes (set64 dst d v) (d + 64) v (n - 64) = memset_bytes dst d v n := by
  funext k
  simp only [memset_bytes, set64]
  by_cases h1 : d + 64 ≤ k ∧ k < d + 64 + (n - 64)
  · rw [if_pos h1, if_pos (by omega)]
  · rw [if_neg h1]
    by_cases h2 : d ≤ k ∧ k < d + 64
    · rw [if_pos h2, if_pos (by omega)]
    · rw [if_neg h2, if_neg (by omega)]

/-- The fill loop is extensionally a plain byte fill. -/
theorem neonSetLoop_eq (value size : Nat) :
    ∀ dst d, neonSetLoop dst d value size = memset_bytes dst d value size := by
  induction size using Nat.strong_induction_on with
  | _ size ih =>
    intro dst d
    rw [neonSetLoop]
    by_cases h : 64 ≤ size
    · rw [if_pos h]
      rw [ih (size - 64) (by omega)]
      exact memset_bytes_chunk dst d value size h
    · rw [if_neg h]
      by_cases h0 : 0 < size
      · rw [if_pos h0]
      · rw [if_neg h0]
        have hz : size = 0 := by omega
        rw [hz, memset_bytes_zero]

/-- C4: after `obs_memset_neon(dst, v, n)`, every one of the first `n`
destination bytes equals the low 8 bits of `v` (in particular for
`n` in 0, 1, 63, 64, 65, 4096). -/
theorem memset_neon_fills_low_byte (dst : Mem) (dOff v n k : Nat) (hk : k < n) :
    obs_memset_neon dst dOff v n (dOff + k) = v % 256 := by
  have he : obs_memset_neon dst dOff v n = memset_bytes dst dOff v n := by
    unfold obs_memset_neon
    by_cases h : 64 ≤ n
    · rw [if_pos h]
      exact neonSetLoop_eq v n dst dOff
    · rw [if_neg h]
  rw [he]
  simp only [memset_bytes]
  rw [if_pos (by omega)]

/-- Witness for C4: fill 65 bytes with value 300, read byte 64 (the
remainder byte after one 64-byte chunk): it equals 300 mod 256 = 44. -/
theorem memset_neon_fills_low_byte_witness :
    obs_memset_neon (fun _ => 7) 0 300 65 (0 + 64) = 300 % 256 :=
  memset_neon_fills_low_byte (fun _ => 7) 0 300 65 64 (by decide)

/-- Power-of-two test: `n` is a power of two iff `2 ^ log2 n` recovers
`n` (false for 0). -/
def isPow2 (n : Nat) : Bool := 2 ^ n.log2 == n

/-- Modelled from the spec: `posix_memalign`, the platform aligned
allocation facility, is external to the repository (spec §6 lists it as
an external collaborator).  Its contract per spec §4.1: the request
fails unless `alignment` is a power of two and `size` is nonzero, and a
successful result is an address that is a multiple of `alignment`.
The embedding takes any allocator satisfying that contract. -/
def AllocContract (alloc : Nat → Nat → Option Nat) : Prop :=
  (∀ a s, (isPow2 a = false ∨ s = 0) → alloc a s = none) ∧
    ∀ a s p, alloc a s = some p → p % a = 0

/-- `obs_aligned_alloc(alignment, size)`: calls `posix_memalign` and
returns NULL (`none`) when it reports a nonzero error, otherwise the
pointer it produced. -/
def obs_aligned_alloc (alloc : Nat → Nat → Option Nat)
    (alignment size : Nat) : Option Nat :=
  match alloc alignment size with
  | none => none
  | some p => some p

/-- C5: under the `posix_memalign` contract, `obs_aligned_alloc`
returns the failure signal whenever `alignment` is not a power of two
or `size` is zero, and every successful allocation returns an address
that is a multiple of `alignment`. -/
theorem aligned_alloc_contract (alloc : Nat → Nat → Option Nat)
    (hc : AllocContract alloc) (alignment size : Nat) :
    ((isPow2 alignment = false ∨ size = 0) →
        obs_aligned_alloc alloc alignment size = none) ∧
      ∀ p, obs_aligned_alloc alloc alignment size = some p → p % alignment = 0 := by
  constructor
  · intro hbad
    unfold obs_aligned_alloc
    rw [hc.1 alignment size hbad]
  · intro p hp
    unfold obs_aligned_alloc at hp
    rcases he : alloc alignment size with _ | q
    · rw [he] at hp
      cases hp
    · rw [he] at hp
      cases hp
      exact hc.2 alignment size p he

/-- A concrete allocator satisfying the `posix_memalign` contract: it
hands out address 0 exactly on valid requests. -/
def demoAllocator (a s : Nat) : Option Nat :=
  if isPow2 a = true ∧ 0 < s then some 0 else none

theorem demoAllocator_contract : AllocContract demoAllocator := by
  constructor
  · intro a s h
    unfold demoAllocator
    rw [if_neg]
    rintro ⟨h1, h2⟩
    rcases h with h | h
    · rw [h] at h1
      cases h1
    · omega
  · intro a s p hp
    unfold demoAllocator at hp
    by_cases h : isPow2 a = true ∧ 0 < s
    · rw [if_pos h] at hp
      cases hp
      exact Nat.zero_mod a
    · rw [if_neg h] at hp
      cases hp

/-- Witness for C5 at alignment 64, size 128 (and the failure clause
instantiated, vacuously dischargeable only on success inputs, at the
same point). -/
theorem aligned_alloc_contract_witness :
    ((isPow2 64 = false ∨ (128 : Nat) = 0) →
        obs_aligned_alloc demoAllocator 64 128 = none) ∧
      ∀ p, obs_aligned_alloc demoAllocator 64 128 = some p → p % 64 = 0 :=
  aligned_alloc_contract demoAllocator demoAllocator_contract 64 128

/-- `LOG_ERROR` from the header (syslog-style numeric level 3). -/
def LOG_ERROR : Nat := 3

/-- `LOG_WARNING` from the header (numeric level 4). -/
def LOG_WARNING : Nat := 4

/-- `LOG_INFO` from the header (numeric level 6). -/
def LOG_INFO : Nat := 6

/-- `LOG_DEBUG` from the header (numeric level 7). -/
def LOG_DEBUG : Nat := 7

/-- C10: the four logging levels are strictly ordered
`LOG_ERROR < LOG_WARNING < LOG_INFO < LOG_DEBUG`, ERROR being the
least verbose level and DEBUG the most verbose. -/
theorem log_levels_strictly_ordered :
    LOG_ERROR < LOG_WARNING ∧ LOG_WARNING < LOG_INFO ∧ LOG_INFO < LOG_DEBUG := by
  decide

/-- `obs_atomic_counter_t`: two `_Atomic uint64_t` fields; 64-bit
values are naturals kept below `2 ^ 64` by the operations. -/
structure obs_atomic_counter_t where
  value : Nat
  updates : Nat

/-- `obs_atomic_counter_init`: both fields are stored as 0. -/
def obs_atomic_counter_init : obs_atomic_counter_t := ⟨0, 0⟩

/-- `obs_atomic_counter_increment`: `atomic_fetch_add` on each field;
`uint64_t` addition wraps modulo `2 ^ 64`. -/
def obs_atomic_counter_increment (c : obs_atomic_counter_t) (delta : Nat) :
    obs_atomic_counter_t :=
  ⟨(c.value + delta) % 2 ^ 64, (c.updates + 1) % 2 ^ 64⟩

/-- `obs_atomic_counter_get`: atomic load of the value field. -/
def obs_atomic_counter_get (c : obs_atomic_counter_t) : Nat := c.value

/-- `obs_atomic_counter_get_updates`: atomic load of the updates
field. -/
def obs_atomic_counter_get_updates (c : obs_atomic_counter_t) : Nat := c.updates

/-- A sequential run of increments with the given deltas. -/
def runIncrements (c : obs_atomic_counter_t) (deltas : List Nat) :
    obs_atomic_counter_t :=
  deltas.foldl obs_atomic_counter_increment c

/-- C6 fails on the code as stated: with the valid `uint64` deltas
`2^64 - 1` and then `2`, the value field wraps from `2^64 - 1` down
to 1, so it is not non-decreasing over the counter's lifetime. -/
theorem counter_value_wraps_down :
    (2 ^ 64 - 1 < 2 ^ 64 ∧ (2 : Nat) < 2 ^ 64) ∧
      obs_atomic_counter_get
          (obs_atomic_counter_increment
            (obs_atomic_counter_increment obs_atomic_counter_init (2 ^ 64 - 1)) 2) <
        obs_atomic_counter_get
          (obs_atomic_counter_increment obs_atomic_counter_init (2 ^ 64 - 1)) := by
  constructor
  · constructor <;> norm_num
  · simp only [obs_atomic_counter_get, obs_atomic_counter_increment,
      obs_atomic_counter_init, Nat.zero_add]
    norm_num

/-- A prefix of a list of naturals sums to at most the whole list. -/
theorem sum_take_le (l : List Nat) (n : Nat) : (l.take n).sum ≤ l.sum := by
  conv_rhs => rw [← List.take_append_drop n l]
  rw [List.sum_append]
  exact Nat.le_add_right _ _

/-- Closed form of a run of increments on in-range fields. -/
theorem runIncrements_closed (ds : List Nat) :
    ∀ v u, v < 2 ^ 64 → u < 2 ^ 64 →
      runIncrements ⟨v, u⟩ ds =
        ⟨(v + ds.sum) % 2 ^ 64, (u + ds.length) % 2 ^ 64⟩ := by
  induction ds with
  | nil =>
    intro v u hv hu
    simp only [runIncrements, List.foldl_nil, List.sum_nil, List.length_nil,
      Nat.add_zero]
    rw [Nat.mod_eq_of_lt hv, Nat.mod_eq_of_lt hu]
  | cons d tl ih =>
    intro v u hv hu
    simp only [runIncrements, List.foldl_cons] at ih ⊢
    simp only [obs_atomic_counter_increment]
    rw [ih _ _ (Nat.mod_lt _ (by norm_num)) (Nat.mod_lt _ (by norm_num))]
    simp only [obs_atomic_counter_t.mk.injEq, List.sum_cons, List.length_cons]
    constructor
    · rw [Nat.mod_add_mod]
      congr 1
      omega
    · rw [Nat.mod_add_mod]
      congr 1
      omega

/-- C6 amended: over any run of increments from a fresh counter in
which neither 64-bit field wraps (the deltas sum to less than `2^64`
and there are fewer than `2^64` increments), both the value field and
the updates field are non-decreasing: after `i ≤ j` increments the
fields at step `i` are at most the fields at step `j`. -/
theorem counter_monotone_no_overflow (deltas : List Nat) (i j : Nat)
    (hsum : deltas.sum < 2 ^ 64) (hlen : deltas.length < 2 ^ 64) (hij : i ≤ j) :
    obs_atomic_counter_get (runIncrements obs_atomic_counter_init (deltas.take i)) ≤
        obs_atomic_counter_get (runIncrements obs_atomic_counter_init (deltas.take j)) ∧
      obs_atomic_counter_get_updates
          (runIncrements obs_atomic_counter_init (deltas.take i)) ≤
        obs_atomic_counter_get_updates
          (runIncrements obs_atomic_counter_init (deltas.take j)) := by
  have hcl : ∀ k, runIncrements obs_atomic_counter_init (deltas.take k) =
      ⟨(deltas.take k).sum, (deltas.take k).length⟩ := by
    intro k
    have h1 := runIncrements_closed (deltas.take k) 0 0 (by norm_num) (by norm_num)
    unfold obs_atomic_counter_init
    rw [h1]
    simp only [Nat.zero_add, obs_atomic_counter_t.mk.injEq]
    constructor
    · exact Nat.mod_eq_of_lt (by
        have := sum_take_le deltas k
        omega)
    · exact Nat.mod_eq_of_lt (by
        simp only [List.length_take]
        omega)
  rw [hcl i, hcl j]
  constructor
  · show (deltas.take i).sum ≤ (deltas.take j).sum
    have h2 : deltas.take i = (deltas.take j).take i := by
      rw [List.take_take]
      congr 1
      omega
    rw [h2]
    exact sum_take_le _ _
  · show (deltas.take i).length ≤ (deltas.take j).length
    simp only [List.length_take]
    omega

/-- Witness for the amended C6 at `deltas = [5, 7, 11]`, steps 1 ≤ 3. -/
theorem counter_monotone_no_overflow_witness :
    obs_atomic_counter_get
        (runIncrements obs_atomic_counter_init ([5, 7, 11].take 1)) ≤
      obs_atomic_counter_get
        (runIncrements obs_atomic_counter_init ([5, 7, 11].take 3)) ∧
    obs_atomic_counter_get_updates
        (runIncrements obs_atomic_counter_init ([5, 7, 11].take 1)) ≤
      obs_atomic_counter_get_updates
        (runIncrements obs_atomic_counter_init ([5, 7, 11].take 3)) :=
  counter_monotone_no_overflow [5, 7, 11] 1 3 (by norm_num) (by norm_num) (by norm_num)

/-- A primitive atomic step inside `obs_atomic_counter_increment`: one
`atomic_fetch_add` on the value field or one on the updates field.
Under concurrency, the steps of different threads interleave at this
granularity; each step is individually atomic. -/
inductive CounterOp where
  | addValue (delta : Nat)
  | addUpdates
deriving DecidableEq

/-- Effect of one atomic step on the counter. -/
def applyOp (c : obs_atomic_counter_t) : CounterOp → obs_atomic_counter_t
  | CounterOp.addValue d => ⟨(c.value + d) % 2 ^ 64, c.updates⟩
  | CounterOp.addUpdates => ⟨c.value, (c.updates + 1) % 2 ^ 64⟩

/-- Execute an interleaved schedule of atomic steps. -/
def runOps (c : obs_atomic_counter_t) (ops : List CounterOp) : obs_atomic_counter_t :=
  ops.foldl applyOp c

/-- Total delta added to the value field by a schedule. -/
def opsDelta (ops : List CounterOp) : Nat :=
  (ops.map fun o => match o with
    | CounterOp.addValue d => d
    | CounterOp.addUpdates => 0).sum

/-- Number of update-field steps in a schedule. -/
def opsUpdates (ops : List CounterOp) : Nat :=
  (ops.map fun o => match o with
    | CounterOp.addValue _ => 0
    | CounterOp.addUpdates => 1).sum

/-- Closed form of an arbitrary schedule: each field accumulates its
own additions modulo `2 ^ 64`, independent of the order. -/
theorem runOps_closed (ops : List CounterOp) :
    ∀ v u, v < 2 ^ 64 → u < 2 ^ 64 →
      runOps ⟨v, u⟩ ops =
        ⟨(v + opsDelta ops) % 2 ^ 64, (u + opsUpdates ops) % 2 ^ 64⟩ := by
  induction ops with
  | nil =>
    intro v u hv hu
    simp only [runOps, List.foldl_nil, opsDelta, opsUpdates, List.map_nil,
      List.sum_nil, Nat.add_zero]
    rw [Nat.mod_eq_of_lt hv, Nat.mod_eq_of_lt hu]
  | cons o tl ih =>
    intro v u hv hu
    simp only [runOps, List.foldl_cons] at ih ⊢
    cases o with
    | addValue d =>
      simp only [applyOp]
      rw [ih _ _ (Nat.mod_lt _ (by norm_num)) hu]
      simp only [opsDelta, opsUpdates, List.map_cons, List.sum_cons,
        obs_atomic_counter_t.mk.injEq]
      constructor
      · rw [Nat.mod_add_mod]
        congr 1
        omega
      · congr 1
        omega
    | addUpdates =>
      simp only [applyOp]
      rw [ih _ _ hv (Nat.mod_lt _ (by norm_num))]
      simp only [opsDelta, opsUpdates, List.map_cons, List.sum_cons,
        obs_atomic_counter_t.mk.injEq]
      constructor
      · congr 1
        omega
      · rw [Nat.mod_add_mod]
        congr 1
        omega

/-- The value total of a schedule is invariant under reordering. -/
theorem opsDelta_perm (ops ops' : List CounterOp) (h : ops.Perm ops') :
    opsDelta ops = opsDelta ops' := by
  unfold opsDelta
  exact (h.map _).sum_eq

/-- The update count of a schedule is invariant under reordering. -/
theorem opsUpdates_perm (ops ops' : List CounterOp) (h : ops.Perm ops') :
    opsUpdates ops = opsUpdates ops' := by
  unfold opsUpdates
  exact (h.map _).sum_eq

/-- The canonical schedule of `T` threads making `K` increments of
delta 1 each: `T*K` value steps and `T*K` update steps. -/
theorem opsDelta_schedule (n : Nat) :
    opsDelta (List.replicate n (CounterOp.addValue 1) ++
      List.replicate n CounterOp.addUpdates) = n := by
  simp [opsDelta, List.map_append, List.map_replicate, List.sum_append,
    List.sum_replicate, smul_eq_mul]

theorem opsUpdates_schedule (n : Nat) :
    opsUpdates (List.replicate n (CounterOp.addValue 1) ++
      List.replicate n CounterOp.addUpdates) = n := by
  simp [opsUpdates, List.map_append, List.map_replicate, List.sum_append,
    List.sum_replicate, smul_eq_mul]

/-- C7: for any interleaved schedule of the atomic steps issued by `T`
threads each performing `K` increments of delta 1 on a freshly
initialized counter — i.e. any permutation of `T*K` value steps and
`T*K` update steps, each step an individually atomic fetch-add — the
final `obs_atomic_counter_get` returns exactly `T*K` and
`obs_atomic_counter_get_updates` returns exactly `T*K` (with `T*K`
representable in 64 bits). -/
theorem counter_concurrent_increments_exact (T K : Nat) (ops : List CounterOp)
    (hperm : ops.Perm (List.replicate (T * K) (CounterOp.addValue 1) ++
      List.replicate (T * K) CounterOp.addUpdates))
    (hsize : T * K < 2 ^ 64) :
    obs_atomic_counter_get (runOps obs_atomic_counter_init ops) = T * K ∧
      obs_atomic_counter_get_updates (runOps obs_atomic_counter_init ops) = T * K := by
  have hd : opsDelta ops = T * K := by
    rw [opsDelta_perm ops _ hperm, opsDelta_schedule]
  have hu : opsUpdates ops = T * K := by
    rw [opsUpdates_perm ops _ hperm, opsUpdates_schedule]
  unfold obs_atomic_counter_init
  rw [runOps_closed ops 0 0 (by norm_num) (by norm_num)]
  simp only [obs_atomic_counter_get, obs_atomic_counter_get_updates, Nat.zero_add]
  rw [hd, hu, Nat.mod_eq_of_lt hsize]
  exact ⟨rfl, rfl⟩

/-- Witness for C7: 2 threads, 3 increments each, under a genuinely
interleaved schedule (value and update steps alternating). -/
theorem counter_concurrent_increments_exact_witness :
    obs_atomic_counter_get (runOps obs_atomic_counter_init
        [CounterOp.addValue 1, CounterOp.addUpdates, CounterOp.addValue 1,
         CounterOp.addValue 1, CounterOp.addUpdates, CounterOp.addUpdates,
         CounterOp.addValue 1, CounterOp.addValue 1, CounterOp.addUpdates,
         CounterOp.addValue 1, CounterOp.addUpdates, CounterOp.addUpdates]) = 2 * 3 ∧
      obs_atomic_counter_get_updates (runOps obs_atomic_counter_init
        [CounterOp.addValue 1, CounterOp.addUpdates, CounterOp.addValue 1,
         CounterOp.addValue 1, CounterOp.addUpdates, CounterOp.addUpdates,
         CounterOp.addValue 1, CounterOp.addValue 1, CounterOp.addUpdates,
         CounterOp.addValue 1, CounterOp.addUpdates, CounterOp.addUpdates]) = 2 * 3 :=
  counter_concurrent_increments_exact 2 3 _ (by decide) (by norm_num)
